import Mathlib

/-!
Verification of the Cachelab storage engine: the hash function
(`src/core/HashFunction.ts`), the string escape/unescape codec
(`src/core/StringUtils.ts`), the disk format encode/decode
(`src/core/DiskPersistence.ts`), the bucket layer (`BucketManager`)
and the store orchestration (`HashMapStore`).

Strings are modelled as `List Char`; JavaScript numbers appearing in the
hash are modelled as `Int` with explicit 32-bit wraparound.  File-system
effects are stripped: `save` is modelled by the pure file content it
writes and `load` by the pure decoding of a given file content; the
store operations return the list of file contents written so that
"performs no persistence write" is expressible.
-/

namespace Cachelab

/-- Two's-complement 32-bit wraparound, the effect of JavaScript's
`| 0`-style coercions (`<<` and `&` operate on int32). -/
def toInt32 (n : Int) : Int := (n + 2 ^ 31) % 2 ^ 32 - 2 ^ 31

/-- One loop iteration of `HashFunction.hash`:
`hash = ((hash << 5) - hash) + char; hash = hash & hash;`.
`h << 5` wraps to int32, and the final `& h` wraps the sum to int32. -/
def hashStep (h : Int) (c : Char) : Int :=
  toInt32 (toInt32 (h * 2 ^ 5) - h + c.toNat)

/-- The accumulator loop of `HashFunction.hash` over the key. -/
def hashAcc (key : List Char) : Int := key.foldl hashStep 0

/-- Model of `HashFunction.hash`: `Math.abs(hash) % this.bucketCount`. -/
def hash (bucketCount : Nat) (key : List Char) : Nat :=
  (hashAcc key).natAbs % bucketCount

/-- Model of `StringUtils.escapeString`, one character: `:` becomes `::`,
newline becomes backslash-`n`, backslash becomes backslash-backslash. -/
def escChar (c : Char) : List Char :=
  if c = ':' then [':', ':']
  else if c = '\n' then ['\\', 'n']
  else if c = '\\' then ['\\', '\\']
  else [c]

/-- Model of `StringUtils.escapeString`: escape every character in order. -/
def escapeString : List Char → List Char
  | [] => []
  | c :: rest => escChar c ++ escapeString rest

/-- Model of `StringUtils.unescapeString`: left-to-right scan; backslash-`n`
decodes to newline, backslash-backslash to one backslash, `::` to one
colon; the escape branches require a following character (`i + 1 <
str.length`), so a lone trailing character is copied verbatim. -/
def unescapeString : List Char → List Char
  | [] => []
  | [c] => [c]
  | c1 :: c2 :: rest =>
    if c1 = '\\' then
      if c2 = 'n' then '\n' :: unescapeString rest
      else if c2 = '\\' then '\\' :: unescapeString rest
      else c1 :: unescapeString (c2 :: rest)
    else if c1 = ':' then
      if c2 = ':' then ':' :: unescapeString rest
      else c1 :: unescapeString (c2 :: rest)
    else c1 :: unescapeString (c2 :: rest)

/-- Model of `StringUtils.splitString`: split on a delimiter; a trailing field is
always pushed, so the result is never empty and `"" ↦ [""]`. -/
def splitString (d : Char) : List Char → List (List Char)
  | [] => [[]]
  | c :: rest =>
    let r := splitString d rest
    if c = d then [] :: r
    else (c :: r.headD []) :: r.tail

/-- Model of `StringUtils.indexOfString` specialised to the one-character search
string `":"` used by `DiskPersistence.load`: index of the first colon,
`none` for the JavaScript `-1`. -/
def indexOfChar (c : Char) : List Char → Option Nat
  | [] => none
  | x :: rest => if x = c then some 0 else (indexOfChar c rest).map (· + 1)

/-- The character class stripped by JavaScript `String.prototype.trim`
(WhiteSpace and LineTerminator code points). -/
def isJsWhitespace (c : Char) : Bool :=
  c = ' ' || c = '\t' || c = '\n' || c = '\r' ||
  c.toNat = 11 || c.toNat = 12 || c.toNat = 0xa0 || c.toNat = 0xfeff ||
  c.toNat = 0x1680 || (0x2000 ≤ c.toNat && c.toNat ≤ 0x200a) ||
  c.toNat = 0x2028 || c.toNat = 0x2029 || c.toNat = 0x202f ||
  c.toNat = 0x205f || c.toNat = 0x3000

/-- JavaScript `line.trim()`: strip leading and trailing whitespace. -/
def trim (l : List Char) : List Char :=
  ((l.dropWhile isJsWhitespace).reverse.dropWhile isJsWhitespace).reverse

/-- A key-value pair, the element type of every bucket. -/
structure Entry where
  key : List Char
  value : List Char
deriving DecidableEq, Repr

/-- The line `DiskPersistence.save` writes for one entry:
`escapedKey:escapedValue`. -/
def saveLine (e : Entry) : List Char :=
  escapeString e.key ++ [':'] ++ escapeString e.value

/-- JavaScript `lines.join("\n")`. -/
def joinLines : List (List Char) → List Char
  | [] => []
  | [l] => l
  | l :: rest => l ++ '\n' :: joinLines rest

/-- The file content written by `DiskPersistence.save`: one line per
entry, bucket 0 first, joined by newlines. -/
def saveContent (buckets : List (List Entry)) : List Char :=
  joinLines ((buckets.flatten).map saveLine)

/-- One iteration of `DiskPersistence.load`'s line loop: trim, skip the
blank line, find the first colon, skip the line unless the colon index
is positive, otherwise unescape the two halves. -/
def parseLine (line : List Char) : Option Entry :=
  if trim line = [] then none
  else
    match indexOfChar ':' (trim line) with
    | some ci =>
      if 0 < ci then
        some ⟨unescapeString ((trim line).take ci),
          unescapeString ((trim line).drop (ci + 1))⟩
      else none
    | none => none

/-- Model of `DiskPersistence.load` on a given file content: split on newlines
and decode each line, silently skipping blank and malformed lines. -/
def load (content : List Char) : List Entry :=
  (splitString '\n' content).filterMap parseLine

/-- Model of `BucketManager.setInBucket` on one bucket: linear scan, overwrite
the value of the first entry with a matching key, else append. -/
def listSet : List Entry → List Char → List Char → List Entry
  | [], k, v => [⟨k, v⟩]
  | e :: rest, k, v =>
    if e.key = k then ⟨e.key, v⟩ :: rest else e :: listSet rest k v

/-- Model of `BucketManager.getFromBucket` on one bucket: first match or
`undefined`. -/
def getFromBucket : List Entry → List Char → Option (List Char)
  | [], _ => none
  | e :: rest, k => if e.key = k then some e.value else getFromBucket rest k

/-- Model of `BucketManager.hasInBucket` on one bucket. -/
def hasInBucket : List Entry → List Char → Bool
  | [], _ => false
  | e :: rest, k => if e.key = k then true else hasInBucket rest k

/-- Model of `BucketManager.deleteFromBucket` on one bucket: remove the first
matching entry by shifting, preserving the order of the rest; the
returned Bool is the JavaScript return value. -/
def deleteFromBucket : List Entry → List Char → Bool × List Entry
  | [], _ => (false, [])
  | e :: rest, k =>
    if e.key = k then (true, rest)
    else
      let p := deleteFromBucket rest k
      (p.1, e :: p.2)

/-- Model of `BucketManager.getAll` read through a key: iterating forward and
assigning `result[key] = value` makes the last write win. -/
def objGet (entries : List Entry) (k : List Char) : Option (List Char) :=
  entries.foldl (fun acc e => if e.key = k then some e.value else acc) none

/-- Model of `HashMapStore` state: the bucket count and the bucket table
(`BucketManager.buckets`, length = bucketCount). -/
structure Store where
  bucketCount : Nat
  buckets : List (List Entry)
deriving DecidableEq, Repr

/-- The bucket a key is routed to: `this.buckets[hash(key)]`. -/
def bucketFor (s : Store) (k : List Char) : List Entry :=
  s.buckets.getD (hash s.bucketCount k) []

/-- Model of `HashMapStore.setWithoutSave`: hash, then `setInBucket`. -/
def setWithoutSave (s : Store) (k v : List Char) : Store :=
  let i := hash s.bucketCount k
  { s with buckets := s.buckets.set i (listSet (s.buckets.getD i []) k v) }

/-- Model of `HashMapStore.get`. -/
def getS (s : Store) (k : List Char) : Option (List Char) :=
  getFromBucket (bucketFor s k) k

/-- Model of `HashMapStore.has`. -/
def hasS (s : Store) (k : List Char) : Bool :=
  hasInBucket (bucketFor s k) k

/-- Model of `getAllKeys().length`, i.e. the total number of entries. -/
def totalItems (s : Store) : Nat := ((s.buckets.flatten).map Entry.key).length

/-- Model of `HashMapStore.shouldResize`: `totalItems / bucketCount > 0.75`.
The bucket count is always a power of two, so the double-precision
division in the source is exact and the comparison coincides with the
exact rational one, written here as `4 * items > 3 * buckets`. -/
def shouldResize (s : Store) : Bool := 4 * totalItems s > 3 * s.bucketCount

/-- A freshly constructed `BucketManager` of a given capacity: all
buckets empty. -/
def emptyStore (n : Nat) : Store := ⟨n, List.replicate n []⟩

/-- Model of `HashMapStore.resize`: double the capacity, recreate the table, and
re-insert every entry via `setWithoutSave`, looking its value up in the
`getAll()` object. -/
def resize (s : Store) : Store :=
  let allEntries := s.buckets.flatten
  let allKeys := allEntries.map Entry.key
  allKeys.foldl
    (fun st k => setWithoutSave st k ((objGet allEntries k).getD []))
    (emptyStore (s.bucketCount * 2))

/-- Model of `HashMapStore.set`: remember whether the key existed, insert, resize
only if the key was new and the load factor now exceeds the threshold,
then persist.  The second component is the list of file contents
written. -/
def set (s : Store) (k v : List Char) : Store × List (List Char) :=
  let ex := hasS s k
  let s1 := setWithoutSave s k v
  let s2 := if !ex && shouldResize s1 then resize s1 else s1
  (s2, [saveContent s2.buckets])

/-- Model of `HashMapStore.update`: hash once; if the bucket has the key,
overwrite via `setInBucket`, persist, and return true; otherwise return
false with no effect and no write. -/
def update (s : Store) (k v : List Char) : Bool × Store × List (List Char) :=
  let i := hash s.bucketCount k
  if hasInBucket (s.buckets.getD i []) k then
    let s1 := { s with buckets := s.buckets.set i (listSet (s.buckets.getD i []) k v) }
    (true, s1, [saveContent s1.buckets])
  else (false, s, [])

/-- Model of `HashMapStore.delete`: hash once; if `deleteFromBucket` removed the
entry, persist and return true; otherwise return false with no effect
and no write. -/
def deleteS (s : Store) (k : List Char) : Bool × Store × List (List Char) :=
  let i := hash s.bucketCount k
  let p := deleteFromBucket (s.buckets.getD i []) k
  if p.1 then
    let s1 := { s with buckets := s.buckets.set i p.2 }
    (true, s1, [saveContent s1.buckets])
  else (false, s, [])

/-- Model of `HashMapStore.getBucketForKey`. -/
def getBucketForKey (s : Store) (k : List Char) : Nat := hash s.bucketCount k

/-- Iterated `set` on a fixed key (one call per element of `vs`),
keeping only the store. -/
def setMany (s : Store) (k : List Char) (vs : List (List Char)) : Store :=
  vs.foldl (fun st v => (set st k v).1) s

/-- Basic well-formedness: the bucket table has exactly `bucketCount`
buckets and the capacity is positive. -/
def WF (s : Store) : Prop :=
  s.buckets.length = s.bucketCount ∧ 0 < s.bucketCount

/-- The table invariant (spec §3): well-formed, every entry lives in the
bucket its key hashes to under the current capacity, and every key
occurs at most once across the whole table. -/
def Inv (s : Store) : Prop :=
  s.buckets.length = s.bucketCount ∧ 0 < s.bucketCount ∧
  (∀ p ∈ s.buckets.enum, ∀ e ∈ p.2, hash s.bucketCount e.key = p.1) ∧
  ((s.buckets.flatten).map Entry.key).Nodup

instance (s : Store) : Decidable (WF s) := by
  unfold WF
  infer_instance

instance (s : Store) : Decidable (Inv s) := by
  unfold Inv
  infer_instance

/-! ## Escape / unescape -/

theorem unescape_escChar_append (c : Char) (t : List Char) :
    unescapeString (escChar c ++ t) = c :: unescapeString t := by
  by_cases hc : c = ':'
  · subst hc
    simp only [escChar, if_pos rfl, List.cons_append, List.nil_append]
    cases t <;> simp [unescapeString]
  · by_cases hn : c = '\n'
    · subst hn
      simp only [escChar]
      norm_num
      cases t <;> simp [unescapeString]
    · by_cases hb : c = '\\'
      · subst hb
        simp only [escChar]
        norm_num
        cases t <;> simp [unescapeString]
      · simp only [escChar, if_neg hc, if_neg hn, if_neg hb, List.cons_append,
          List.nil_append]
        cases t with
        | nil => simp [unescapeString]
        | cons c2 rest => simp [unescapeString, hc, hb]

theorem unescape_escape (s : List Char) :
    unescapeString (escapeString s) = s := by
  induction s with
  | nil => rfl
  | cons c rest ih => rw [escapeString, unescape_escChar_append, ih]

end Cachelab

namespace Cachelab

/-- C4.  For every string `s`, `unescapeString (escapeString s) = s`:
escaping maps `:` to `::`, newline to backslash-`n`, backslash to
backslash-backslash, and the left-to-right unescape scan exactly
inverts it. -/
theorem c4_unescape_escape (s : List Char) :
    unescapeString (escapeString s) = s :=
  unescape_escape s

/-- C2 counterexample.  With the implemented algorithm and bucket count
16, `hash "age"` is 15, not the 2 claimed by the spec (the spec's
literal was copied from the README example table, which does not match
the code: the same table also assigns `hash "city" = 8` while the code
computes 11). -/
theorem c2_counterexample :
    hash 16 ['a', 'g', 'e'] = 15 ∧ ¬ hash 16 ['a', 'g', 'e'] = 2 := by
  constructor <;> decide

/-- C2 amended.  With the implemented hash algorithm (acc*31 + code
under 32-bit wraparound, absolute value, modulo bucket count) and
bucket count 16, `hash "age" = 15` and `hash "name" = 11`. -/
theorem c2_hash_literals :
    hash 16 ['a', 'g', 'e'] = 15 ∧ hash 16 ['n', 'a', 'm', 'e'] = 11 := by
  constructor <;> decide

/-- C9.  For every key and every positive bucket count, `hash` is a
pure function of `(key, bucketCount)` — two evaluations at the same
arguments agree — and its result lies in `[0, bucketCount)`. -/
theorem c9_hash_range (bc : Nat) (k : List Char) (h : 0 < bc) :
    hash bc k = hash bc k ∧ 0 ≤ hash bc k ∧ hash bc k < bc :=
  ⟨rfl, Nat.zero_le _, Nat.mod_lt _ h⟩

theorem c9_hash_range_witness :
    0 < 16 ∧
      (hash 16 ['n', 'a', 'm', 'e'] = hash 16 ['n', 'a', 'm', 'e'] ∧
        0 ≤ hash 16 ['n', 'a', 'm', 'e'] ∧ hash 16 ['n', 'a', 'm', 'e'] < 16) :=
  ⟨by decide, c9_hash_range 16 ['n', 'a', 'm', 'e'] (by decide)⟩

/-! ## Persistence round trip -/

theorem mem_escChar {x c : Char} (h : x ∈ escChar c) :
    x = c ∨ x = '\\' ∨ x = 'n' := by
  unfold escChar at h
  split at h
  · rename_i hc
    simp at h
    exact Or.inl (h.trans hc.symm)
  · split at h
    · simp at h
      rcases h with h | h
      · exact Or.inr (Or.inl h)
      · exact Or.inr (Or.inr h)
    · split at h
      · simp at h
        exact Or.inr (Or.inl h)
      · simp at h
        exact Or.inl h

theorem nl_not_mem_escape (s : List Char) : '\n' ∉ escapeString s := by
  induction s with
  | nil => simp [escapeString]
  | cons c rest ih =>
    rw [escapeString]
    intro h
    rcases List.mem_append.1 h with h1 | h2
    · rcases mem_escChar h1 with h | h | h
      · subst h
        exact absurd h1 (by decide)
      · exact absurd h (by decide)
      · exact absurd h (by decide)
    · exact ih h2

theorem colon_not_mem_escape {s : List Char} (hs : ':' ∉ s) :
    ':' ∉ escapeString s := by
  induction s with
  | nil => simp [escapeString]
  | cons c rest ih =>
    rw [escapeString]
    intro h
    rcases List.mem_append.1 h with h1 | h2
    · rcases mem_escChar h1 with h | h | h
      · subst h
        exact hs (List.mem_cons_self _ _)
      · exact absurd h (by decide)
      · exact absurd h (by decide)
    · exact ih (fun hm => hs (List.mem_cons_of_mem c hm)) h2

theorem escChar_ne_nil (c : Char) : escChar c ≠ [] := by
  unfold escChar
  split
  · simp
  · split
    · simp
    · split
      · simp
      · simp

theorem escape_ne_nil {s : List Char} (hs : s ≠ []) : escapeString s ≠ [] := by
  cases s with
  | nil => exact absurd rfl hs
  | cons c rest =>
    rw [escapeString]
    intro h
    exact escChar_ne_nil c (List.append_eq_nil.1 h).1

theorem indexOfChar_append_cons {c : Char} {a : List Char} (b : List Char)
    (ha : c ∉ a) : indexOfChar c (a ++ c :: b) = some a.length := by
  induction a with
  | nil => simp [indexOfChar]
  | cons x rest ih =>
    have hx : ¬ x = c := fun h => ha (h ▸ List.mem_cons_self x rest)
    rw [List.cons_append, indexOfChar, if_neg hx,
      ih (fun hm => ha (List.mem_cons_of_mem x hm))]
    rfl

theorem splitString_no_delim {d : Char} {a : List Char} (ha : d ∉ a) :
    splitString d a = [a] := by
  induction a with
  | nil => rfl
  | cons c rest ih =>
    have hc : ¬ c = d := fun h => ha (h ▸ List.mem_cons_self c rest)
    rw [splitString]
    simp only [if_neg hc, ih (fun hm => ha (List.mem_cons_of_mem c hm))]
    rfl

theorem splitString_append {d : Char} {a : List Char} (t : List Char)
    (ha : d ∉ a) : splitString d (a ++ d :: t) = a :: splitString d t := by
  induction a with
  | nil => simp [splitString]
  | cons c rest ih =>
    have hc : ¬ c = d := fun h => ha (h ▸ List.mem_cons_self c rest)
    rw [List.cons_append, splitString]
    simp only [if_neg hc, ih (fun hm => ha (List.mem_cons_of_mem c hm))]
    rfl

theorem splitString_joinLines {lines : List (List Char)}
    (hnl : ∀ l ∈ lines, '\n' ∉ l) (hne : lines ≠ []) :
    splitString '\n' (joinLines lines) = lines := by
  induction lines with
  | nil => exact absurd rfl hne
  | cons l rest ih =>
    cases rest with
    | nil =>
      rw [joinLines]
      exact splitString_no_delim (hnl l (List.mem_cons_self l []))
    | cons l2 rest2 =>
      rw [joinLines, splitString_append _ (hnl l (List.mem_cons_self _ _)),
        ih (fun x hx => hnl x (List.mem_cons_of_mem l hx))
          (List.cons_ne_nil _ _)]
      exact List.cons_ne_nil _ _

theorem nl_not_mem_saveLine (e : Entry) : '\n' ∉ saveLine e := by
  unfold saveLine
  intro h
  rcases List.mem_append.1 h with h1 | h2
  · rcases List.mem_append.1 h1 with h3 | h4
    · exact nl_not_mem_escape e.key h3
    · simp at h4
  · exact nl_not_mem_escape e.value h2

theorem parseLine_saveLine {e : Entry} (hk : e.key ≠ []) (hc : ':' ∉ e.key)
    (ht : trim (saveLine e) = saveLine e) :
    parseLine (saveLine e) = some e := by
  have hline : saveLine e = escapeString e.key ++ ':' :: escapeString e.value := by
    unfold saveLine
    simp
  have hcesc : ':' ∉ escapeString e.key := colon_not_mem_escape hc
  have hidx : indexOfChar ':' (saveLine e) = some (escapeString e.key).length := by
    rw [hline]
    exact indexOfChar_append_cons _ hcesc
  have hne : saveLine e ≠ [] := by
    rw [hline]
    simp
  unfold parseLine
  rw [ht, if_neg hne, hidx]
  have hpos : 0 < (escapeString e.key).length :=
    List.length_pos.2 (escape_ne_nil hk)
  dsimp only
  rw [if_pos hpos]
  have htake : (saveLine e).take (escapeString e.key).length = escapeString e.key := by
    rw [hline, ← List.singleton_append, ← List.append_assoc]
    rw [show escapeString e.key ++ [':'] ++ escapeString e.value =
      (escapeString e.key ++ [':']) ++ escapeString e.value from rfl]
    rw [List.take_append_eq_append_take]
    simp
  have hdrop : (saveLine e).drop ((escapeString e.key).length + 1)
      = escapeString e.value := by
    rw [hline, show (escapeString e.key ++ ':' :: escapeString e.value)
      = escapeString e.key ++ ([':'] ++ escapeString e.value) from rfl]
    rw [List.drop_append 1]
    simp
  rw [htake, hdrop, unescape_escape, unescape_escape]

theorem filterMap_parseLine_saveLine {entries : List Entry}
    (h : ∀ e ∈ entries, parseLine (saveLine e) = some e) :
    (entries.map saveLine).filterMap parseLine = entries := by
  induction entries with
  | nil => rfl
  | cons e rest ih =>
    rw [List.map_cons, List.filterMap_cons, h e (List.mem_cons_self e rest)]
    rw [ih (fun x hx => h x (List.mem_cons_of_mem e hx))]

/-- C1 counterexample.  Save then load on a table holding exactly the
single entry `("a:b", "c")` — whose key contains a colon — does not
reproduce it: the escaped line is `a::b:c`, whose first colon falls
inside the escaped key, so load decodes it as `("a", ":b:c")`. -/
theorem c1_counterexample :
    load (saveContent [[⟨['a', ':', 'b'], ['c']⟩]])
        = [⟨['a'], [':', 'b', ':', 'c']⟩] ∧
      Entry.mk ['a', ':', 'b'] ['c'] ∉ load (saveContent [[⟨['a', ':', 'b'], ['c']⟩]]) := by
  constructor <;> decide

/-- C1 amended.  For every bucket table whose entries have pairwise
distinct keys, save followed by load reproduces exactly the entry
sequence — values byte-for-byte, embedded colons, newlines and
backslashes in values included — provided every key is nonempty,
no key contains a colon, and no encoded line starts or ends with a
character stripped by `trim` (keys must not start with, and values
must not end with, raw whitespace such as spaces, tabs or carriage
returns). -/
theorem c1_save_load_round_trip (buckets : List (List Entry))
    (_hkeys : ((buckets.flatten).map Entry.key).Nodup)
    (h : ∀ e ∈ buckets.flatten,
      e.key ≠ [] ∧ ':' ∉ e.key ∧ trim (saveLine e) = saveLine e) :
    load (saveContent buckets) = buckets.flatten := by
  unfold load saveContent
  cases hflat : buckets.flatten with
  | nil => decide
  | cons e0 rest =>
    have hlines : (e0 :: rest).map saveLine ≠ [] := by simp
    have hnl : ∀ l ∈ (e0 :: rest).map saveLine, '\n' ∉ l := by
      intro l hl
      rcases List.mem_map.1 hl with ⟨e, _, he⟩
      exact he ▸ nl_not_mem_saveLine e
    rw [splitString_joinLines hnl hlines]
    refine filterMap_parseLine_saveLine ?_
    intro e he
    obtain ⟨h1, h2, h3⟩ := h e (by rw [hflat]; exact he)
    exact parseLine_saveLine h1 h2 h3

theorem unescape_ne_nil {l : List Char} (h : l ≠ []) :
    unescapeString l ≠ [] := by
  match l with
  | [] => exact absurd rfl h
  | [c] => simp [unescapeString]
  | c1 :: c2 :: rest =>
    rw [unescapeString]
    split
    · split
      · simp
      · split
        · simp
        · simp
    · split
      · split
        · simp
        · simp
      · simp

theorem parseLine_key_ne_nil {line : List Char} {e : Entry}
    (h : parseLine line = some e) : e.key ≠ [] := by
  unfold parseLine at h
  split at h
  · exact absurd h (by simp)
  · rename_i hne
    split at h
    · rename_i ci hci
      split at h
      · rename_i hpos
        have he := Option.some.inj h
        rw [← he]
        have htne : (trim line).take ci ≠ [] := by
          cases htl : trim line with
          | nil => exact absurd htl hne
          | cons x xs =>
            cases ci with
            | zero => exact absurd hpos (by simp)
            | succ n => simp [List.take]
        exact unescape_ne_nil htne
      · exact absurd h (by simp)
    · exact absurd h (by simp)

/-- C10.  If the table contains an entry with the empty key, save still
writes a line for it, beginning with the `:` separator; but load skips
every line whose first colon is at position 0, so no load result — in
particular not the load of this save — ever contains an empty-key
entry. -/
theorem c10_empty_key_dropped (buckets : List (List Entry)) (e : Entry)
    (he : e ∈ buckets.flatten) (hk : e.key = []) :
    saveLine e = ':' :: escapeString e.value ∧
      saveLine e ∈ (buckets.flatten).map saveLine ∧
      e ∉ load (saveContent buckets) ∧
      (∀ content, ∀ e2 ∈ load content, e2.key ≠ []) := by
  have h3 : ∀ content, ∀ e2 ∈ load content, e2.key ≠ [] := by
    intro content e2 hmem
    rcases List.mem_filterMap.1 hmem with ⟨line, _, hp⟩
    exact parseLine_key_ne_nil hp
  refine ⟨?_, List.mem_map_of_mem saveLine he, ?_, h3⟩
  · rw [saveLine, hk]
    rfl
  · intro hmem
    exact h3 (saveContent buckets) e hmem hk

theorem c10_empty_key_dropped_witness :
    ((Entry.mk [] ['v']) ∈ ([[⟨[], ['v']⟩]] : List (List Entry)).flatten ∧
        (Entry.mk [] ['v']).key = []) ∧
      (saveLine ⟨[], ['v']⟩ = ':' :: escapeString ['v'] ∧
        saveLine ⟨[], ['v']⟩
          ∈ (([[⟨[], ['v']⟩]] : List (List Entry)).flatten).map saveLine ∧
        Entry.mk [] ['v'] ∉ load (saveContent [[⟨[], ['v']⟩]]) ∧
        (∀ content, ∀ e2 ∈ load content, e2.key ≠ [])) :=
  ⟨⟨by decide, rfl⟩,
    c10_empty_key_dropped [[⟨[], ['v']⟩]] ⟨[], ['v']⟩ (by decide) rfl⟩

theorem c1_save_load_round_trip_witness :
    (((([[⟨['a'], ['b', ':', 'c']⟩], [⟨['d'], ['e', '\n', '\\']⟩]] :
        List (List Entry)).flatten).map Entry.key).Nodup ∧
      (∀ e ∈ ([[⟨['a'], ['b', ':', 'c']⟩], [⟨['d'], ['e', '\n', '\\']⟩]] :
          List (List Entry)).flatten,
        e.key ≠ [] ∧ ':' ∉ e.key ∧ trim (saveLine e) = saveLine e)) ∧
      load (saveContent [[⟨['a'], ['b', ':', 'c']⟩], [⟨['d'], ['e', '\n', '\\']⟩]])
        = ([[⟨['a'], ['b', ':', 'c']⟩], [⟨['d'], ['e', '\n', '\\']⟩]] :
            List (List Entry)).flatten :=
  ⟨⟨by decide, by decide⟩,
    c1_save_load_round_trip _ (by decide) (by decide)⟩

/-! ## Bucket layer -/

theorem getFromBucket_listSet_self (b : List Entry) (k v : List Char) :
    getFromBucket (listSet b k v) k = some v := by
  induction b with
  | nil => simp [listSet, getFromBucket]
  | cons e rest ih =>
    rw [listSet]
    by_cases he : e.key = k
    · rw [if_pos he, getFromBucket, if_pos he]
    · rw [if_neg he, getFromBucket, if_neg he, ih]

theorem getFromBucket_listSet_ne (b : List Entry) {k k' : List Char}
    (v : List Char) (h : k' ≠ k) :
    getFromBucket (listSet b k v) k' = getFromBucket b k' := by
  induction b with
  | nil =>
    simp only [listSet, getFromBucket]
    rw [if_neg (fun hk => h hk.symm)]
  | cons e rest ih =>
    rw [listSet]
    by_cases he : e.key = k
    · rw [if_pos he, getFromBucket, getFromBucket]
      have : ¬ e.key = k' := fun hk => h (hk ▸ he ▸ rfl)
      rw [if_neg this, if_neg this]
    · rw [if_neg he, getFromBucket, getFromBucket, ih]

theorem hasInBucket_eq_isSome (b : List Entry) (k : List Char) :
    hasInBucket b k = (getFromBucket b k).isSome := by
  induction b with
  | nil => rfl
  | cons e rest ih =>
    rw [hasInBucket, getFromBucket]
    by_cases he : e.key = k
    · rw [if_pos he, if_pos he]
      rfl
    · rw [if_neg he, if_neg he, ih]

theorem hasInBucket_iff_mem (b : List Entry) (k : List Char) :
    hasInBucket b k = true ↔ k ∈ b.map Entry.key := by
  induction b with
  | nil => simp [hasInBucket]
  | cons e rest ih =>
    rw [hasInBucket]
    by_cases he : e.key = k
    · simp [if_pos he, he]
    · rw [if_neg he, List.map_cons]
      simp only [List.mem_cons, ih]
      constructor
      · exact Or.inr
      · rintro (h | h)
        · exact absurd h.symm he
        · exact h

/-! ## Store layer: effect of one insert -/

theorem getD_set_self {α : Type} {l : List α} {i : Nat} (a d : α)
    (h : i < l.length) : (l.set i a).getD i d = a := by
  rw [List.getD_eq_getD_get?, List.get?_eq_getElem?,
    List.getElem?_set_eq_of_lt a h]
  rfl

theorem getD_set_ne {α : Type} {l : List α} {i j : Nat} (a d : α)
    (h : i ≠ j) : (l.set i a).getD j d = l.getD j d := by
  rw [List.getD_eq_getD_get?, List.getD_eq_getD_get?,
    List.get?_set_ne a l h]

theorem bucketCount_setWithoutSave (s : Store) (k v : List Char) :
    (setWithoutSave s k v).bucketCount = s.bucketCount := rfl

theorem WF_setWithoutSave {s : Store} (h : WF s) (k v : List Char) :
    WF (setWithoutSave s k v) := by
  obtain ⟨hlen, hpos⟩ := h
  exact ⟨by simpa [setWithoutSave] using hlen, hpos⟩

theorem getS_setWithoutSave (s : Store) (k v k' : List Char) (h : WF s) :
    getS (setWithoutSave s k v) k'
      = if k' = k then some v else getS s k' := by
  obtain ⟨hlen, hpos⟩ := h
  have hi : hash s.bucketCount k < s.buckets.length := by
    rw [hlen]
    exact Nat.mod_lt _ hpos
  by_cases hk : k' = k
  · subst hk
    rw [if_pos rfl]
    unfold getS bucketFor setWithoutSave
    simp only
    rw [getD_set_self _ _ hi]
    exact getFromBucket_listSet_self _ _ _
  · rw [if_neg hk]
    unfold getS bucketFor setWithoutSave
    simp only
    by_cases hii : hash s.bucketCount k' = hash s.bucketCount k
    · rw [hii, getD_set_self _ _ hi]
      exact getFromBucket_listSet_ne _ _ hk
    · rw [getD_set_ne _ _ (fun he => hii he.symm)]

theorem hasS_eq_isSome (s : Store) (k : List Char) :
    hasS s k = (getS s k).isSome :=
  hasInBucket_eq_isSome _ _

theorem set_of_exists {s : Store} {k : List Char} (v : List Char)
    (h : hasS s k = true) : set s k v = (setWithoutSave s k v,
      [saveContent (setWithoutSave s k v).buckets]) := by
  unfold set
  rw [h]
  simp

theorem hasS_setWithoutSave_self {s : Store} (k v : List Char) (h : WF s) :
    hasS (setWithoutSave s k v) k = true := by
  rw [hasS_eq_isSome, getS_setWithoutSave s k v k h, if_pos rfl]
  rfl

theorem setMany_bucketCount {s : Store} {k : List Char}
    (vs : List (List Char)) (hwf : WF s) (h : hasS s k = true) :
    (setMany s k vs).bucketCount = s.bucketCount := by
  induction vs generalizing s with
  | nil => rfl
  | cons v vs ih =>
    have hstep : setMany s k (v :: vs) = setMany (set s k v).1 k vs := rfl
    rw [hstep, set_of_exists v h]
    exact (ih (WF_setWithoutSave hwf k v)
      (hasS_setWithoutSave_self k v hwf)).trans rfl

/-- C5.  When key `k` is already present, `set k v` (and any number of
repeated `set` calls on `k`) never changes the bucket count and never
resizes: the store after the call is exactly `setWithoutSave`, the only
table effect being that `k` now maps to `v` while every other key is
untouched. -/
theorem c5_set_existing_no_resize (s : Store) (k v : List Char)
    (hwf : WF s) (h : hasS s k = true) :
    (set s k v).1.bucketCount = s.bucketCount ∧
      (set s k v).1 = setWithoutSave s k v ∧
      getS (set s k v).1 k = some v ∧
      (∀ k', k' ≠ k → getS (set s k v).1 k' = getS s k') ∧
      (∀ vs : List (List Char), (setMany s k vs).bucketCount = s.bucketCount) := by
  have hs : (set s k v).1 = setWithoutSave s k v := by
    rw [set_of_exists v h]
  refine ⟨by rw [hs]; rfl, hs, ?_, ?_, fun vs => setMany_bucketCount vs hwf h⟩
  · rw [hs, getS_setWithoutSave s k v k hwf, if_pos rfl]
  · intro k' hk
    rw [hs, getS_setWithoutSave s k v k' hwf, if_neg hk]

theorem c5_set_existing_no_resize_witness :
    (WF (⟨1, [[⟨['a'], ['x']⟩]]⟩ : Store) ∧
        hasS ⟨1, [[⟨['a'], ['x']⟩]]⟩ ['a'] = true) ∧
      ((set ⟨1, [[⟨['a'], ['x']⟩]]⟩ ['a'] ['y']).1.bucketCount = 1 ∧
        (set ⟨1, [[⟨['a'], ['x']⟩]]⟩ ['a'] ['y']).1
          = setWithoutSave ⟨1, [[⟨['a'], ['x']⟩]]⟩ ['a'] ['y'] ∧
        getS (set ⟨1, [[⟨['a'], ['x']⟩]]⟩ ['a'] ['y']).1 ['a'] = some ['y'] ∧
        (∀ k', k' ≠ ['a'] →
          getS (set ⟨1, [[⟨['a'], ['x']⟩]]⟩ ['a'] ['y']).1 k'
            = getS ⟨1, [[⟨['a'], ['x']⟩]]⟩ k') ∧
        (∀ vs : List (List Char),
          (setMany ⟨1, [[⟨['a'], ['x']⟩]]⟩ ['a'] vs).bucketCount = 1)) :=
  ⟨⟨by decide, by decide⟩,
    c5_set_existing_no_resize ⟨1, [[⟨['a'], ['x']⟩]]⟩ ['a'] ['y']
      (by decide) (by decide)⟩

/-- C7.  `update k v` returns true exactly when `k` already exists; on
success the store is the overwrite `setWithoutSave s k v` (so `k` now
maps to `v` and no other key changed) and one full-table save is
written; on failure the triple is exactly `(false, s, [])`: unchanged
store, no write. -/
theorem c7_update (s : Store) (k v : List Char) (hwf : WF s) :
    ((update s k v).1 = hasS s k) ∧
      (hasS s k = false → update s k v = (false, s, [])) ∧
      (hasS s k = true →
        (update s k v).2.1 = setWithoutSave s k v ∧
        getS (update s k v).2.1 k = some v ∧
        (∀ k', k' ≠ k → getS (update s k v).2.1 k' = getS s k') ∧
        (update s k v).2.2 = [saveContent (setWithoutSave s k v).buckets]) := by
  have hcond : update s k v = if hasS s k then
      (true, setWithoutSave s k v,
        [saveContent (setWithoutSave s k v).buckets])
    else (false, s, []) := rfl
  by_cases hh : hasS s k = true
  · rw [hcond, if_pos hh]
    refine ⟨hh.symm, fun hc => absurd hh (by rw [hc]; exact Bool.false_ne_true), ?_⟩
    intro _
    refine ⟨rfl, ?_, ?_, rfl⟩
    · rw [getS_setWithoutSave s k v k hwf, if_pos rfl]
    · intro k' hk
      rw [getS_setWithoutSave s k v k' hwf, if_neg hk]
  · have hh' : hasS s k = false := Bool.not_eq_true _ ▸ Bool.of_not_eq_true hh
    rw [hcond, if_neg hh]
    exact ⟨hh'.symm, fun _ => rfl, fun hc => absurd hc hh⟩

theorem c7_update_witness :
    WF (⟨1, [[⟨['a'], ['x']⟩]]⟩ : Store) ∧
      (((update ⟨1, [[⟨['a'], ['x']⟩]]⟩ ['b'] ['y']).1
          = hasS ⟨1, [[⟨['a'], ['x']⟩]]⟩ ['b']) ∧
        (hasS ⟨1, [[⟨['a'], ['x']⟩]]⟩ ['b'] = false →
          update ⟨1, [[⟨['a'], ['x']⟩]]⟩ ['b'] ['y']
            = (false, ⟨1, [[⟨['a'], ['x']⟩]]⟩, [])) ∧
        (hasS ⟨1, [[⟨['a'], ['x']⟩]]⟩ ['b'] = true →
          (update ⟨1, [[⟨['a'], ['x']⟩]]⟩ ['b'] ['y']).2.1
            = setWithoutSave ⟨1, [[⟨['a'], ['x']⟩]]⟩ ['b'] ['y'] ∧
          getS (update ⟨1, [[⟨['a'], ['x']⟩]]⟩ ['b'] ['y']).2.1 ['b'] = some ['y'] ∧
          (∀ k', k' ≠ ['b'] →
            getS (update ⟨1, [[⟨['a'], ['x']⟩]]⟩ ['b'] ['y']).2.1 k'
              = getS ⟨1, [[⟨['a'], ['x']⟩]]⟩ k') ∧
          (update ⟨1, [[⟨['a'], ['x']⟩]]⟩ ['b'] ['y']).2.2
            = [saveContent (setWithoutSave ⟨1, [[⟨['a'], ['x']⟩]]⟩ ['b'] ['y']).buckets])) :=
  ⟨by decide, c7_update ⟨1, [[⟨['a'], ['x']⟩]]⟩ ['b'] ['y'] (by decide)⟩

/-! ## Delete -/

theorem deleteFromBucket_fst (b : List Entry) (k : List Char) :
    (deleteFromBucket b k).1 = hasInBucket b k := by
  induction b with
  | nil => rfl
  | cons e rest ih =>
    rw [deleteFromBucket, hasInBucket]
    by_cases he : e.key = k
    · rw [if_pos he, if_pos he]
    · rw [if_neg he, if_neg he]
      exact ih

theorem deleteFromBucket_of_not_has {b : List Entry} {k : List Char}
    (h : hasInBucket b k = false) : deleteFromBucket b k = (false, b) := by
  induction b with
  | nil => rfl
  | cons e rest ih =>
    rw [hasInBucket] at h
    by_cases he : e.key = k
    · rw [if_pos he] at h
      exact absurd h (by simp)
    · rw [if_neg he] at h
      rw [deleteFromBucket, if_neg he, ih h]

theorem deleteFromBucket_sublist (b : List Entry) (k : List Char) :
    List.Sublist (deleteFromBucket b k).2 b := by
  induction b with
  | nil => exact List.Sublist.refl _
  | cons e rest ih =>
    rw [deleteFromBucket]
    by_cases he : e.key = k
    · rw [if_pos he]
      exact List.sublist_cons_self e rest
    · rw [if_neg he]
      exact List.Sublist.cons₂ e ih

theorem getFromBucket_deleteFromBucket_ne (b : List Entry)
    {k k' : List Char} (h : k' ≠ k) :
    getFromBucket (deleteFromBucket b k).2 k' = getFromBucket b k' := by
  induction b with
  | nil => rfl
  | cons e rest ih =>
    rw [deleteFromBucket]
    by_cases he : e.key = k
    · rw [if_pos he, getFromBucket]
      have : ¬ e.key = k' := fun hk => h (hk ▸ he ▸ rfl)
      rw [if_neg this]
    · rw [if_neg he, getFromBucket, getFromBucket]
      by_cases he' : e.key = k'
      · rw [if_pos he', if_pos he']
      · rw [if_neg he', if_neg he', ih]

theorem hasInBucket_deleteFromBucket_self {b : List Entry} {k : List Char}
    (hnd : (b.map Entry.key).Nodup) :
    hasInBucket (deleteFromBucket b k).2 k = false := by
  induction b with
  | nil => rfl
  | cons e rest ih =>
    rw [List.map_cons, List.nodup_cons] at hnd
    rw [deleteFromBucket]
    by_cases he : e.key = k
    · rw [if_pos he]
      rw [Bool.eq_false_iff]
      intro hmem
      exact hnd.1 (he ▸ (hasInBucket_iff_mem rest k).1 hmem)
    · rw [if_neg he]
      rw [show (((deleteFromBucket rest k).1, e :: (deleteFromBucket rest k).2) :
          Bool × List Entry).2 = e :: (deleteFromBucket rest k).2 from rfl]
      rw [hasInBucket, if_neg he]
      exact ih hnd.2

theorem bucket_keys_nodup {s : Store} (hinv : Inv s) (i : Nat) :
    ((s.buckets.getD i []).map Entry.key).Nodup := by
  obtain ⟨_, _, _, hnd⟩ := hinv
  by_cases hi : i < s.buckets.length
  · have hmem : s.buckets.getD i [] ∈ s.buckets := by
      rw [List.getD_eq_getElem _ _ hi]
      exact List.getElem_mem hi
    exact ((List.sublist_join hmem).map Entry.key).nodup hnd
  · rw [List.getD_eq_default _ _ (Nat.le_of_not_lt hi)]
    exact List.nodup_nil

theorem deleteS_eq (s : Store) (k : List Char) :
    deleteS s k =
      if (deleteFromBucket (s.buckets.getD (hash s.bucketCount k) []) k).1 then
        (true,
          Store.mk s.bucketCount (s.buckets.set (hash s.bucketCount k)
            (deleteFromBucket (s.buckets.getD (hash s.bucketCount k) []) k).2),
          [saveContent (s.buckets.set (hash s.bucketCount k)
            (deleteFromBucket (s.buckets.getD (hash s.bucketCount k) []) k).2)])
      else (false, s, []) := rfl

/-- C6.  Deleting an absent key returns false with the triple exactly
`(false, s, [])`: the table, the bucket count, and the persistence
write list are all unchanged/empty.  Deleting a present key returns
true, removes it (the key is gone afterwards) and leaves every other
key's value untouched; the capacity never changes. -/
theorem c6_delete (s : Store) (k : List Char) (hinv : Inv s) :
    (hasS s k = false → deleteS s k = (false, s, [])) ∧
      (hasS s k = true →
        (deleteS s k).1 = true ∧
        hasS (deleteS s k).2.1 k = false ∧
        (∀ k', k' ≠ k → getS (deleteS s k).2.1 k' = getS s k')) ∧
      (deleteS s k).2.1.bucketCount = s.bucketCount := by
  obtain ⟨hlen, hpos, hidx, hnd⟩ := hinv
  have hi : hash s.bucketCount k < s.buckets.length := by
    rw [hlen]
    exact Nat.mod_lt _ hpos
  have hfst : (deleteFromBucket
      (s.buckets.getD (hash s.bucketCount k) []) k).1 = hasS s k :=
    deleteFromBucket_fst _ _
  refine ⟨?_, ?_, ?_⟩
  · intro h0
    rw [deleteS_eq, hfst, h0]
    rfl
  · intro h1
    rw [deleteS_eq, hfst, h1]
    refine ⟨rfl, ?_, ?_⟩
    · unfold hasS bucketFor
      simp only [if_true]
      rw [getD_set_self _ _ hi]
      exact hasInBucket_deleteFromBucket_self
        (bucket_keys_nodup ⟨hlen, hpos, hidx, hnd⟩ _)
    · intro k' hk
      unfold getS bucketFor
      simp only [if_true]
      by_cases hii : hash s.bucketCount k' = hash s.bucketCount k
      · rw [hii, getD_set_self _ _ hi]
        exact getFromBucket_deleteFromBucket_ne _ hk
      · rw [getD_set_ne _ _ (fun he => hii he.symm)]
  · rw [deleteS_eq]
    by_cases h : (deleteFromBucket (s.buckets.getD (hash s.bucketCount k) []) k).1
    · rw [if_pos h]
    · rw [if_neg h]

theorem c6_delete_witness :
    Inv (⟨1, [[⟨['a'], ['x']⟩]]⟩ : Store) ∧
      ((hasS ⟨1, [[⟨['a'], ['x']⟩]]⟩ ['b'] = false →
          deleteS ⟨1, [[⟨['a'], ['x']⟩]]⟩ ['b']
            = (false, ⟨1, [[⟨['a'], ['x']⟩]]⟩, [])) ∧
        (hasS ⟨1, [[⟨['a'], ['x']⟩]]⟩ ['b'] = true →
          (deleteS ⟨1, [[⟨['a'], ['x']⟩]]⟩ ['b']).1 = true ∧
          hasS (deleteS ⟨1, [[⟨['a'], ['x']⟩]]⟩ ['b']).2.1 ['b'] = false ∧
          (∀ k', k' ≠ ['b'] →
            getS (deleteS ⟨1, [[⟨['a'], ['x']⟩]]⟩ ['b']).2.1 k'
              = getS ⟨1, [[⟨['a'], ['x']⟩]]⟩ k')) ∧
        (deleteS ⟨1, [[⟨['a'], ['x']⟩]]⟩ ['b']).2.1.bucketCount = 1) :=
  ⟨by decide, c6_delete ⟨1, [[⟨['a'], ['x']⟩]]⟩ ['b'] (by decide)⟩

/-! ## Resize: fold-insert characterisation -/

theorem get?_getD {α : Type} (l : List α) (i : Nat) (d : α)
    (h : i < l.length) : l.get? i = some (l.getD i d) := by
  rw [List.getD_eq_getElem _ _ h, List.get?_eq_getElem?,
    List.getElem?_eq_getElem h]

theorem getFromBucket_none {b : List Entry} {k : List Char}
    (h : ∀ e ∈ b, e.key ≠ k) : getFromBucket b k = none := by
  induction b with
  | nil => rfl
  | cons e rest ih =>
    rw [getFromBucket, if_neg (h e (List.mem_cons_self _ _))]
    exact ih (fun x hx => h x (List.mem_cons_of_mem e hx))

theorem getFromBucket_eq_of_nodup {b : List Entry} {e : Entry} {k : List Char}
    (hnd : (b.map Entry.key).Nodup) (he : e ∈ b) (hk : e.key = k) :
    getFromBucket b k = some e.value := by
  induction b with
  | nil => exact absurd he (List.not_mem_nil e)
  | cons e1 rest ih =>
    rw [List.map_cons, List.nodup_cons] at hnd
    rw [getFromBucket]
    by_cases h1 : e1.key = k
    · rw [if_pos h1]
      have : e = e1 := by
        rcases List.mem_cons.1 he with h | h
        · exact h
        · have hmem : e1.key ∈ List.map Entry.key rest := by
            rw [h1, ← hk]
            exact List.mem_map_of_mem Entry.key h
          exact absurd hmem hnd.1
      rw [this]
    · rw [if_neg h1]
      have : e ∈ rest := by
        rcases List.mem_cons.1 he with h | h
        · exact absurd (h ▸ hk) h1
        · exact h
      exact ih hnd.2 this

theorem foldl_objGet_const {k : List Char} {l : List Entry}
    (h : ∀ e ∈ l, e.key ≠ k) (acc : Option (List Char)) :
    l.foldl (fun acc e => if e.key = k then some e.value else acc) acc = acc := by
  induction l generalizing acc with
  | nil => rfl
  | cons e rest ih =>
    rw [List.foldl_cons, if_neg (h e (List.mem_cons_self _ _))]
    exact ih (fun x hx => h x (List.mem_cons_of_mem e hx)) acc

theorem objGet_none {entries : List Entry} {k : List Char}
    (h : ∀ e ∈ entries, e.key ≠ k) : objGet entries k = none :=
  foldl_objGet_const h none

theorem foldl_objGet_eq {k : List Char} {l : List Entry} {e : Entry}
    (hnd : (l.map Entry.key).Nodup) (he : e ∈ l) (hk : e.key = k)
    (acc : Option (List Char)) :
    l.foldl (fun acc e => if e.key = k then some e.value else acc) acc
      = some e.value := by
  induction l generalizing acc with
  | nil => exact absurd he (List.not_mem_nil e)
  | cons e1 rest ih =>
    rw [List.map_cons, List.nodup_cons] at hnd
    rw [List.foldl_cons]
    by_cases h1 : e1.key = k
    · rw [if_pos h1]
      have hee : e = e1 := by
        rcases List.mem_cons.1 he with h | h
        · exact h
        · have hmem : e1.key ∈ List.map Entry.key rest := by
            rw [h1, ← hk]
            exact List.mem_map_of_mem Entry.key h
          exact absurd hmem hnd.1
      have hrest : ∀ x ∈ rest, x.key ≠ k := by
        intro x hx hxk
        exact hnd.1 (h1 ▸ hxk ▸ List.mem_map_of_mem Entry.key hx)
      rw [foldl_objGet_const hrest, hee]
    · rw [if_neg h1]
      have : e ∈ rest := by
        rcases List.mem_cons.1 he with h | h
        · exact absurd (h ▸ hk) h1
        · exact h
      exact ih hnd.2 this acc

theorem objGet_eq_of_nodup {entries : List Entry} {e : Entry}
    (hnd : (entries.map Entry.key).Nodup) (he : e ∈ entries) :
    objGet entries e.key = some e.value :=
  foldl_objGet_eq hnd he rfl none

theorem getS_emptyStore (n : Nat) (k : List Char) :
    getS (emptyStore n) k = none := by
  unfold getS bucketFor emptyStore
  have : (List.replicate n ([] : List Entry)).getD (hash n k) [] = [] := by
    rw [List.getD_eq_getD_get?, List.get?_eq_getElem?]
    exact List.getElem?_getD_replicate_default_eq ([] : List Entry) n (hash n k)
  simp only at this ⊢
  rw [this]
  rfl

theorem WF_emptyStore {n : Nat} (h : 0 < n) : WF (emptyStore n) :=
  ⟨List.length_replicate n [], h⟩

theorem foldl_ins_bucketCount (f : List Char → List Char)
    (ks : List (List Char)) (st : Store) :
    (ks.foldl (fun st k => setWithoutSave st k (f k)) st).bucketCount
      = st.bucketCount := by
  induction ks generalizing st with
  | nil => rfl
  | cons k1 rest ih => exact (ih (setWithoutSave st k1 (f k1))).trans rfl

theorem foldl_ins_WF (f : List Char → List Char)
    (ks : List (List Char)) {st : Store} (h : WF st) :
    WF (ks.foldl (fun st k => setWithoutSave st k (f k)) st) := by
  induction ks generalizing st with
  | nil => exact h
  | cons k1 rest ih => exact ih (WF_setWithoutSave h k1 (f k1))

theorem getS_foldl_ins (f : List Char → List Char)
    (ks : List (List Char)) {st : Store} (h : WF st) (k : List Char) :
    getS (ks.foldl (fun st k => setWithoutSave st k (f k)) st) k
      = if k ∈ ks then some (f k) else getS st k := by
  induction ks generalizing st with
  | nil => simp
  | cons k1 rest ih =>
    rw [List.foldl_cons, ih (WF_setWithoutSave h k1 (f k1))]
    by_cases hk : k ∈ rest
    · rw [if_pos hk, if_pos (List.mem_cons_of_mem _ hk)]
    · rw [if_neg hk, getS_setWithoutSave st k1 (f k1) k h]
      by_cases he : k = k1
      · rw [if_pos he, if_pos (he ▸ List.mem_cons_self k1 rest), he]
      · rw [if_neg he, if_neg (fun hm => by
          rcases List.mem_cons.1 hm with hx | hx
          · exact he hx
          · exact hk hx)]

theorem bucketCount_resize (s : Store) :
    (resize s).bucketCount = s.bucketCount * 2 :=
  (foldl_ins_bucketCount _ _ _).trans rfl

theorem getS_resize_flat (s : Store) (h : 0 < s.bucketCount) (k : List Char) :
    getS (resize s) k
      = if k ∈ (s.buckets.flatten).map Entry.key
        then some ((objGet s.buckets.flatten k).getD []) else none := by
  unfold resize
  rw [getS_foldl_ins _ _ (WF_emptyStore (by omega)) k, getS_emptyStore]

theorem getS_eq_flat (s : Store) (hinv : Inv s) (k : List Char) :
    getS s k
      = if k ∈ (s.buckets.flatten).map Entry.key
        then some ((objGet s.buckets.flatten k).getD []) else none := by
  obtain ⟨hlen, hpos, hidx, hnd⟩ := hinv
  have hi : hash s.bucketCount k < s.buckets.length := by
    rw [hlen]
    exact Nat.mod_lt _ hpos
  by_cases hk : k ∈ (s.buckets.flatten).map Entry.key
  · rw [if_pos hk]
    obtain ⟨e, he, hek⟩ := List.mem_map.1 hk
    obtain ⟨b, hb, heb⟩ := List.mem_join.mp he
    obtain ⟨j, hj⟩ := List.mem_iff_get?.mp hb
    have hjhash : hash s.bucketCount e.key = j :=
      hidx (j, b) (List.mem_enum_iff_get?.2 hj) e heb
    have hik : hash s.bucketCount k = j := hek ▸ hjhash
    have hbf : bucketFor s k = b := by
      unfold bucketFor
      rw [hik]
      have hjlt : j < s.buckets.length := hik ▸ hi
      have hgd := get?_getD s.buckets j [] hjlt
      rw [hgd] at hj
      exact Option.some.inj hj
    have hbnd : (b.map Entry.key).Nodup :=
      ((List.sublist_join hb).map Entry.key).nodup hnd
    unfold getS
    rw [hbf, getFromBucket_eq_of_nodup hbnd heb hek]
    have hob : objGet s.buckets.flatten k = some e.value := by
      rw [← hek]
      exact objGet_eq_of_nodup hnd he
    rw [hob]
    rfl
  · rw [if_neg hk]
    have hbmem : ∀ x ∈ bucketFor s k, x ∈ s.buckets.flatten := by
      intro x hx
      refine List.mem_join.mpr ⟨bucketFor s k, ?_, hx⟩
      unfold bucketFor
      rw [List.getD_eq_getElem _ _ hi]
      exact List.getElem_mem hi
    refine getFromBucket_none ?_
    intro e he hek
    exact hk (hek ▸ List.mem_map_of_mem Entry.key (hbmem e he))

theorem getS_resize_eq (s : Store) (hinv : Inv s) (k : List Char) :
    getS (resize s) k = getS s k := by
  rw [getS_resize_flat s hinv.2.1 k, getS_eq_flat s hinv k]

/-! ## Invariant preservation -/

theorem mem_listSet_key {b : List Entry} {k v : List Char} {e : Entry}
    (he : e ∈ listSet b k v) : e.key ∈ b.map Entry.key ∨ e.key = k := by
  induction b with
  | nil =>
    simp only [listSet, List.mem_singleton] at he
    right
    rw [he]
  | cons e1 rest ih =>
    rw [listSet] at he
    by_cases h1 : e1.key = k
    · rw [if_pos h1] at he
      rcases List.mem_cons.1 he with h | h
      · left
        rw [h]
        exact List.mem_cons_self _ _
      · left
        exact List.mem_cons_of_mem _ (List.mem_map_of_mem Entry.key h)
    · rw [if_neg h1] at he
      rcases List.mem_cons.1 he with h | h
      · left
        rw [h]
        exact List.mem_cons_self _ _
      · rcases ih h with hx | hx
        · exact Or.inl (List.mem_cons_of_mem _ hx)
        · exact Or.inr hx

theorem listSet_keys (b : List Entry) (k v : List Char) :
    (listSet b k v).map Entry.key
      = if hasInBucket b k then b.map Entry.key
        else b.map Entry.key ++ [k] := by
  induction b with
  | nil => simp [listSet, hasInBucket]
  | cons e rest ih =>
    by_cases h1 : e.key = k
    · simp [listSet, hasInBucket, h1]
    · by_cases h2 : hasInBucket rest k
      · simp [listSet, hasInBucket, h1, h2, ih]
      · simp [listSet, hasInBucket, h1, h2, ih]

theorem flatten_decomp {α : Type} (l : List (List α)) (i : Nat)
    (h : i < l.length) :
    l.flatten = (l.take i).flatten ++ l.getD i [] ++ (l.drop (i + 1)).flatten := by
  conv_lhs => rw [← List.take_append_drop i l]
  rw [List.flatten_append, List.drop_eq_get_cons h, List.flatten_cons,
    List.getD_eq_getElem l [] h, List.get_eq_getElem, List.append_assoc]

theorem flatten_set {α : Type} (l : List (List α)) (i : Nat) (b : List α)
    (h : i < l.length) :
    (l.set i b).flatten = (l.take i).flatten ++ b ++ (l.drop (i + 1)).flatten := by
  rw [List.set_eq_take_cons_drop b h, List.flatten_append, List.flatten_cons,
    ← List.append_assoc]

theorem hash_lt_of_mem_take {s : Store}
    (hidx : ∀ p ∈ s.buckets.enum, ∀ e ∈ p.2, hash s.bucketCount e.key = p.1)
    {i : Nat} {e : Entry} (he : e ∈ (s.buckets.take i).flatten) :
    hash s.bucketCount e.key < i := by
  obtain ⟨b, hb, heb⟩ := List.mem_join.mp he
  obtain ⟨j, hj⟩ := List.mem_iff_get?.mp hb
  have hjlen : j < (s.buckets.take i).length := by
    by_contra hlt
    rw [List.get?_eq_none.mpr (Nat.le_of_not_lt hlt)] at hj
    cases hj
  have hji : j < i := by
    rw [List.length_take] at hjlen
    omega
  have hjfull : s.buckets.get? j = some b := by
    rw [← List.get?_take hji]
    exact hj
  have hkey := hidx (j, b) (List.mem_enum_iff_get?.2 hjfull) e heb
  rw [hkey]
  exact hji

theorem hash_gt_of_mem_drop {s : Store}
    (hidx : ∀ p ∈ s.buckets.enum, ∀ e ∈ p.2, hash s.bucketCount e.key = p.1)
    {i : Nat} {e : Entry} (he : e ∈ (s.buckets.drop (i + 1)).flatten) :
    i < hash s.bucketCount e.key := by
  obtain ⟨b, hb, heb⟩ := List.mem_join.mp he
  obtain ⟨j, hj⟩ := List.mem_iff_get?.mp hb
  have hjfull : s.buckets.get? (i + 1 + j) = some b := by
    rw [← List.get?_drop]
    exact hj
  have hkey := hidx (i + 1 + j, b) (List.mem_enum_iff_get?.2 hjfull) e heb
  rw [hkey]
  omega

theorem Inv_setWithoutSave {s : Store} (hinv : Inv s) (k v : List Char) :
    Inv (setWithoutSave s k v) := by
  obtain ⟨hlen, hpos, hidx, hnd⟩ := hinv
  have hi : hash s.bucketCount k < s.buckets.length := by
    rw [hlen]
    exact Nat.mod_lt _ hpos
  have hbuckets : (setWithoutSave s k v).buckets
      = s.buckets.set (hash s.bucketCount k)
        (listSet (s.buckets.getD (hash s.bucketCount k) []) k v) := rfl
  have hbc : (setWithoutSave s k v).bucketCount = s.bucketCount := rfl
  refine ⟨?_, hpos, ?_, ?_⟩
  · rw [hbuckets, hbc, List.length_set]
    exact hlen
  · intro p hp e he
    rw [hbc]
    rw [hbuckets] at hp
    have hp' := List.mem_enum_iff_get?.1 hp
    by_cases hpi : p.1 = hash s.bucketCount k
    · rw [hpi, List.get?_eq_getElem?, List.getElem?_set_eq_of_lt _ hi] at hp'
      have hp2 : p.2 = listSet (s.buckets.getD (hash s.bucketCount k) []) k v :=
        (Option.some.inj hp').symm
      rw [hp2] at he
      rcases mem_listSet_key he with hkey | hkey
      · obtain ⟨e0, he0, hke⟩ := List.mem_map.1 hkey
        have hb0 := get?_getD s.buckets (hash s.bucketCount k) [] hi
        have h0 := hidx (hash s.bucketCount k, s.buckets.getD (hash s.bucketCount k) [])
          (List.mem_enum_iff_get?.2 hb0) e0 he0
        rw [hpi, ← hke]
        exact h0
      · rw [hpi, hkey]
    · rw [List.get?_set_ne _ _ (fun hh => hpi hh.symm)] at hp'
      exact hidx p (List.mem_enum_iff_get?.2 hp') e he
  · rw [hbuckets, flatten_set _ _ _ hi, List.map_append, List.map_append,
      listSet_keys]
    have hold := hnd
    rw [flatten_decomp s.buckets (hash s.bucketCount k) hi,
      List.map_append, List.map_append] at hold
    by_cases hh : hasInBucket (s.buckets.getD (hash s.bucketCount k) []) k
    · rw [if_pos hh]
      exact hold
    · rw [if_neg hh]
      have hkA : k ∉ ((s.buckets.take (hash s.bucketCount k)).flatten).map Entry.key := by
        intro hm
        obtain ⟨e, he, hek⟩ := List.mem_map.1 hm
        have := hash_lt_of_mem_take hidx he
        rw [hek] at this
        omega
      have hkC : k ∉ ((s.buckets.drop (hash s.bucketCount k + 1)).flatten).map Entry.key := by
        intro hm
        obtain ⟨e, he, hek⟩ := List.mem_map.1 hm
        have := hash_gt_of_mem_drop hidx he
        rw [hek] at this
        omega
      have hkB : k ∉ ((s.buckets.getD (hash s.bucketCount k) []).map Entry.key) := by
        intro hm
        exact absurd ((hasInBucket_iff_mem _ _).2 hm) hh
      rw [← List.append_assoc, List.append_assoc _ [k] _, List.singleton_append,
        List.nodup_middle, List.nodup_cons]
      refine ⟨?_, hold⟩
      intro hm
      rcases List.mem_append.1 hm with hm1 | hm1
      · rcases List.mem_append.1 hm1 with hm2 | hm2
        · exact hkA hm2
        · exact hkB hm2
      · exact hkC hm1

theorem Inv_emptyStore {n : Nat} (h : 0 < n) : Inv (emptyStore n) := by
  refine ⟨List.length_replicate n [], h, ?_, ?_⟩
  · intro p hp e he
    have hp' := List.mem_enum_iff_get?.1 hp
    simp only [emptyStore] at hp'
    have hp2 : p.2 = [] := by
      rcases Nat.lt_or_ge p.1 n with hlt | hge
      · have hrep : (List.replicate n ([] : List Entry)).get? p.1 = some [] := by
          rw [List.get?_eq_getElem?]
          simp [List.getElem?_replicate, hlt]
        rw [hrep] at hp'
        exact (Option.some.inj hp').symm
      · rw [List.get?_eq_none.mpr
          (by rw [List.length_replicate]; exact hge)] at hp'
        cases hp'
    rw [hp2] at he
    exact absurd he (List.not_mem_nil e)
  · show ((List.replicate n ([] : List Entry)).flatten.map Entry.key).Nodup
    rw [List.flatten_replicate_nil]
    exact List.nodup_nil

theorem Inv_foldl_ins (f : List Char → List Char)
    (ks : List (List Char)) {st : Store} (h : Inv st) :
    Inv (ks.foldl (fun st k => setWithoutSave st k (f k)) st) := by
  induction ks generalizing st with
  | nil => exact h
  | cons k1 rest ih => exact ih (Inv_setWithoutSave h k1 (f k1))

theorem Inv_resize {s : Store} (h : 0 < s.bucketCount) : Inv (resize s) := by
  unfold resize
  exact Inv_foldl_ins _ _ (Inv_emptyStore (by omega))

theorem Inv_deleteS {s : Store} (hinv : Inv s) (k : List Char) :
    Inv (deleteS s k).2.1 := by
  obtain ⟨hlen, hpos, hidx, hnd⟩ := hinv
  have hi : hash s.bucketCount k < s.buckets.length := by
    rw [hlen]
    exact Nat.mod_lt _ hpos
  rw [deleteS_eq]
  by_cases hfst : (deleteFromBucket (s.buckets.getD (hash s.bucketCount k) []) k).1 = true
  · rw [if_pos hfst]
    refine ⟨?_, hpos, ?_, ?_⟩
    · simp only [List.length_set]
      exact hlen
    · intro p hp e he
      have hp' := List.mem_enum_iff_get?.1 hp
      by_cases hpi : p.1 = hash s.bucketCount k
      · rw [hpi, List.get?_eq_getElem?, List.getElem?_set_eq_of_lt _ hi] at hp'
        have hp2 := (Option.some.inj hp').symm
        rw [hp2] at he
        have heb : e ∈ s.buckets.getD (hash s.bucketCount k) [] :=
          (deleteFromBucket_sublist _ k).subset he
        have h0 := hidx (hash s.bucketCount k, s.buckets.getD (hash s.bucketCount k) [])
          (List.mem_enum_iff_get?.2 (get?_getD s.buckets (hash s.bucketCount k) [] hi)) e heb
        rw [hpi]
        exact h0
      · rw [List.get?_set_ne _ _ (fun hh => hpi hh.symm)] at hp'
        exact hidx p (List.mem_enum_iff_get?.2 hp') e he
    · have hsub2 : List.Sublist
          (((deleteFromBucket (s.buckets.getD (hash s.bucketCount k) []) k).2).map Entry.key)
          ((s.buckets.getD (hash s.bucketCount k) []).map Entry.key) :=
        (deleteFromBucket_sublist _ k).map _
      have hold := hnd
      rw [flatten_decomp s.buckets (hash s.bucketCount k) hi,
        List.map_append, List.map_append] at hold
      simp only
      rw [flatten_set _ _ _ hi, List.map_append, List.map_append]
      refine List.Nodup.sublist ?_ hold
      exact (((List.append_sublist_append_left _).mpr hsub2).append_right _)
  · rw [if_neg hfst]
    exact ⟨hlen, hpos, hidx, hnd⟩

theorem Inv_update {s : Store} (hinv : Inv s) (k v : List Char) :
    Inv (update s k v).2.1 := by
  have hcond : update s k v = if hasS s k then
      (true, setWithoutSave s k v,
        [saveContent (setWithoutSave s k v).buckets])
    else (false, s, []) := rfl
  rw [hcond]
  by_cases h : hasS s k = true
  · rw [if_pos h]
    exact Inv_setWithoutSave hinv k v
  · rw [if_neg h]
    exact hinv

theorem set_fst (s : Store) (k v : List Char) :
    (set s k v).1
      = if !hasS s k && shouldResize (setWithoutSave s k v)
        then resize (setWithoutSave s k v) else setWithoutSave s k v := rfl

end Cachelab

namespace Cachelab

/-- C8.  The table invariant — every present key occurs in exactly one
bucket, at index `hash key % bucketCount` under the current capacity —
is preserved by `set`, `update`, `delete`, and re-established by
`resize` under the doubled capacity. -/
theorem c8_invariant_preserved (s : Store) (k v : List Char) (h : Inv s) :
    Inv ((set s k v).1) ∧ Inv ((update s k v).2.1) ∧
      Inv ((deleteS s k).2.1) ∧ Inv (resize s) := by
  refine ⟨?_, Inv_update h k v, Inv_deleteS h k, Inv_resize h.2.1⟩
  rw [set_fst]
  by_cases hc : (!hasS s k && shouldResize (setWithoutSave s k v)) = true
  · rw [if_pos hc]
    exact Inv_resize (s := setWithoutSave s k v) h.2.1
  · rw [if_neg hc]
    exact Inv_setWithoutSave h k v

theorem c8_invariant_preserved_witness :
    Inv (⟨1, [[⟨['a'], ['x']⟩]]⟩ : Store) ∧
      (Inv ((set ⟨1, [[⟨['a'], ['x']⟩]]⟩ ['b'] ['y']).1) ∧
        Inv ((update ⟨1, [[⟨['a'], ['x']⟩]]⟩ ['b'] ['y']).2.1) ∧
        Inv ((deleteS ⟨1, [[⟨['a'], ['x']⟩]]⟩ ['b']).2.1) ∧
        Inv (resize ⟨1, [[⟨['a'], ['x']⟩]]⟩)) :=
  ⟨by decide, c8_invariant_preserved ⟨1, [[⟨['a'], ['x']⟩]]⟩ ['b'] ['y'] (by decide)⟩

/-- C3.  If inserting a new key pushes `entries/bucketCount` above
0.75, the bucket count doubles exactly once for that crossing; after
the resize every previously inserted key is still retrievable via
`get` with its last-written value (and the new key maps to the value
just written), and `getBucketForKey` computes indices under the new,
doubled capacity for all keys. -/
theorem c3_resize_on_threshold (s : Store) (k v : List Char) (hinv : Inv s)
    (hnew : hasS s k = false)
    (htrig : shouldResize (setWithoutSave s k v) = true) :
    (set s k v).1.bucketCount = 2 * s.bucketCount ∧
      getS (set s k v).1 k = some v ∧
      (∀ k', hasS s k' = true → getS (set s k v).1 k' = getS s k') ∧
      (∀ k'', getBucketForKey (set s k v).1 k''
        = hash (2 * s.bucketCount) k'') := by
  have hwf : WF s := ⟨hinv.1, hinv.2.1⟩
  have hinv1 : Inv (setWithoutSave s k v) := Inv_setWithoutSave hinv k v
  have hset : (set s k v).1 = resize (setWithoutSave s k v) := by
    rw [set_fst, hnew, htrig]
    simp
  have hbc : (set s k v).1.bucketCount = s.bucketCount * 2 := by
    rw [hset, bucketCount_resize]
    rfl
  refine ⟨by rw [hbc, Nat.mul_comm], ?_, ?_, ?_⟩
  · rw [hset, getS_resize_eq _ hinv1 k, getS_setWithoutSave s k v k hwf,
      if_pos rfl]
  · intro k' hk'
    have hne : k' ≠ k := by
      intro he
      rw [he, hnew] at hk'
      cases hk'
    rw [hset, getS_resize_eq _ hinv1 k', getS_setWithoutSave s k v k' hwf,
      if_neg hne]
  · intro k''
    show hash (set s k v).1.bucketCount k'' = hash (2 * s.bucketCount) k''
    rw [hbc, Nat.mul_comm]

theorem c3_resize_on_threshold_witness :
    (Inv (⟨1, [[⟨['a'], ['x']⟩]]⟩ : Store) ∧
        hasS ⟨1, [[⟨['a'], ['x']⟩]]⟩ ['b'] = false ∧
        shouldResize (setWithoutSave ⟨1, [[⟨['a'], ['x']⟩]]⟩ ['b'] ['y']) = true) ∧
      ((set ⟨1, [[⟨['a'], ['x']⟩]]⟩ ['b'] ['y']).1.bucketCount = 2 * 1 ∧
        getS (set ⟨1, [[⟨['a'], ['x']⟩]]⟩ ['b'] ['y']).1 ['b'] = some ['y'] ∧
        (∀ k', hasS ⟨1, [[⟨['a'], ['x']⟩]]⟩ k' = true →
          getS (set ⟨1, [[⟨['a'], ['x']⟩]]⟩ ['b'] ['y']).1 k'
            = getS ⟨1, [[⟨['a'], ['x']⟩]]⟩ k') ∧
        (∀ k'', getBucketForKey (set ⟨1, [[⟨['a'], ['x']⟩]]⟩ ['b'] ['y']).1 k''
          = hash (2 * 1) k'')) :=
  ⟨⟨by decide, by decide, by decide⟩,
    c3_resize_on_threshold ⟨1, [[⟨['a'], ['x']⟩]]⟩ ['b'] ['y']
      (by decide) (by decide) (by decide)⟩

end Cachelab
